import Mathlib

/-!
# Verification of the Thorin Joi plugin (`thorin-plugin-joi`)

Shallow embedding of `lib/joi.js` (the `JoiPlugin` class, `handleJoiException`,
`getSchemaField`, `getSchemaArrays` and `convertInputArrays`) into Lean 4,
together with theorems settling the specification claims about:

* the validate success path (clean vs merge reconciliation),
* the in-place `delete opt.clean` on the caller's options object,
* the schema registry (`JoiPlugin.schema`) and its idempotence,
* the array-coercion preprocessing step (`convertInputArrays`),
* the error translator (`handleJoiException`) and its message rules.

JavaScript values are modelled by the inductive type `JVal`; objects are
association lists in property-insertion order (JS objects have unique keys,
so the list operations below remove/replace every matching key, which agrees
with JS semantics on all states the code can actually build).  Exceptions of
the JS semantics (property access on `null`/`undefined`) are modelled with
`Except Unit`.  Strings are treated at the ASCII level: `charAt(0).toUpperCase()`
is `Char.toUpper` on the first character.
-/

/-- Model of a JavaScript value. `undefined` is `undefined`; `null` is `null`;
arrays carry their elements; objects are key/value lists in insertion order. -/
inductive JVal where
  | undefined : JVal
  | null : JVal
  | bool : Bool → JVal
  | num : Int → JVal
  | str : String → JVal
  | arr : List JVal → JVal
  | obj : List (String × JVal) → JVal

/-- The JS test `typeof v === 'undefined'` as a Boolean. -/
def isUndefined : JVal → Bool
  | .undefined => true
  | _ => false

/-- The JS test `v !== false` as a Boolean (strict equality against the literal `false`). -/
def notStrictFalse : JVal → Bool
  | .bool false => false
  | _ => true

/-- First-occurrence lookup in an association list (JS property read). -/
def alistGet {α : Type} : List (String × α) → String → Option α
  | [], _ => none
  | (k', v) :: rest, k => if k' = k then some v else alistGet rest k

/-- JS property write: replace the binding if the key is present, else append. -/
def alistSet {α : Type} : List (String × α) → String → α → List (String × α)
  | [], k, v => [(k, v)]
  | (k', v') :: rest, k, v =>
      if k' = k then (k, v) :: rest else (k', v') :: alistSet rest k v

/-- JS `delete o[k]`: remove the binding for `k` (keys are unique in JS). -/
def alistDel {α : Type} : List (String × α) → String → List (String × α)
  | [], _ => []
  | (k', v) :: rest, k => if k' = k then alistDel rest k else (k', v) :: alistDel rest k

/-- The JS test `typeof v === 'object'` (true for objects, arrays and `null`). -/
def isObjectType : JVal → Bool
  | .obj _ => true
  | .arr _ => true
  | .null => true
  | _ => false

/-- JS truthiness combined with `typeof v === 'object'`:
the guard `typeof data === 'object' && data` of `convertInputArrays`. -/
def isObjTruthy : JVal → Bool
  | .obj _ => true
  | .arr _ => true
  | _ => false

/-- JS `s.split(sep)` for a one-character separator, over the char list. -/
def jsSplitList (sep : Char) : List Char → List (List Char)
  | [] => [[]]
  | c :: rest =>
      if c = sep then [] :: jsSplitList sep rest
      else
        match jsSplitList sep rest with
        | [] => [[c]]
        | g :: gs => (c :: g) :: gs

/-- JS `s.split(sep)` (one-character separator). -/
def jsSplit (sep : Char) (s : String) : List String :=
  (jsSplitList sep s.data).map (fun l => String.mk l)

/-- JS `s.indexOf(c) !== -1`. -/
def jsContains (s : String) (c : Char) : Bool := s.data.contains c

/-- JS `s.trim()` (ASCII whitespace). -/
def jsTrim (s : String) : String :=
  String.mk (((s.data.dropWhile Char.isWhitespace).reverse.dropWhile Char.isWhitespace).reverse)

/-- JS `arr.join(sep)`. -/
def jsJoin (sep : String) : List String → String
  | [] => ""
  | [x] => x
  | x :: rest => x ++ sep ++ jsJoin sep rest

/-- JS `s.substr(0, n)`. -/
def strTake (s : String) (n : Nat) : String := String.mk (s.data.take n)

/-- JS `s.substr(n)`. -/
def strDrop (s : String) (n : Nat) : String := String.mk (s.data.drop n)

/-- A canonical decimal array index, as JS uses for `a["3"]`: the string must
be the canonical representation of the number it parses to. -/
def arrIndex? (s : String) : Option Nat :=
  let n := s.data.foldl (fun acc c => acc * 10 + (c.toNat - 48)) 0
  if Nat.repr n = s then some n else none

/-- JS property read `v[k]`. Throws (`.error`) on `null`/`undefined` receivers;
property reads on other primitives yield `undefined`. -/
def jsGet : JVal → String → Except Unit JVal
  | .undefined, _ => .error ()
  | .null, _ => .error ()
  | .obj fs, k => .ok ((alistGet fs k).getD .undefined)
  | .arr xs, k =>
      .ok (match arrIndex? k with
           | some i => (xs[i]?).getD .undefined
           | none => .undefined)
  | _, _ => .ok .undefined

/-- JS property write `v[k] = w` on the states reachable in this code:
objects get the binding replaced/appended, arrays get an in-range element
replaced (the coercion code only ever writes to a key it has just read a
defined non-array value from). Other receivers are unchanged. -/
def jsSet : JVal → String → JVal → JVal
  | .obj fs, k, v => .obj (alistSet fs k v)
  | .arr xs, k, v =>
      (match arrIndex? k with
       | some i => .arr (xs.set i v)
       | none => .arr xs)
  | x, _, _ => x

/-!
## `convertInputArrays` (lib/joi.js lines 210–243)

The per-path body of the `for` loop lives inside a `try { ... } catch (e) {}`.
`walkSegs` is the inner `for (j …)` walk over the non-final path segments,
carrying the `isValid` flag exactly as the source does (once false it stays
false, but the walk continues and may still move `fieldObj` or throw).
-/

/-- One coercion step outcome: `ret` models a `return` from
`convertInputArrays` itself, `next` models falling through to the next path. -/
inductive PathStep where
  | ret : JVal → PathStep
  | next : JVal → PathStep

/-- The `for (let j = 0; j < subs.length - 1; j++)` walk of `convertInputArrays`:
`fieldObj` moves into `fieldObj[k]` whenever that value is `typeof 'object'`
(which includes `null`), otherwise `isValid` becomes false and the loop
continues. A property read on `null`/`undefined` throws. -/
def walkSegs : JVal → Bool → List String → Except Unit (JVal × Bool)
  | cur, valid, [] => .ok (cur, valid)
  | cur, valid, k :: rest =>
      match jsGet cur k with
      | .error e => .error e
      | .ok v => if isObjectType v then walkSegs v valid rest else walkSegs cur false rest

/-- Rebuilds the outer value after the in-place write `fieldObj[lastKey] = v`,
following the same keys the walk followed. -/
def setPath : JVal → List String → String → JVal → JVal
  | cur, [], last, v => jsSet cur last v
  | cur, k :: rest, last, v =>
      jsSet cur k (setPath (match jsGet cur k with | .ok w => w | .error _ => .undefined) rest last v)

/-- The body of one iteration of the `for` loop of `convertInputArrays`
(everything inside the `try`), for the declared path `f`. -/
def processPath (data : JVal) (f : String) : Except Unit PathStep :=
  if f = "" then
    .ok (.ret (match data with | .arr xs => .arr xs | v => .arr [v]))
  else if isObjTruthy data = false then
    .ok (.ret data)
  else
    let subs := jsSplit '.' f
    match walkSegs data true subs.dropLast with
    | .error e => .error e
    | .ok (fieldObj, valid) =>
      if valid = false then .ok (.next data)
      else
        let lastKey := (subs.getLast?).getD ""
        match jsGet fieldObj lastKey with
        | .error e => .error e
        | .ok cv =>
          match cv with
          | .undefined => .ok (.next data)
          | .arr _ => .ok (.next data)
          | .str s =>
              if s ≠ "" then
                if jsContains s ',' then
                  .ok (.next (setPath data subs.dropLast lastKey
                        (.arr ((jsSplit ',' s).map (fun v => .str (jsTrim v))))))
                else
                  .ok (.next (setPath data subs.dropLast lastKey (.arr [.str s])))
              else
                .ok (.next (setPath data subs.dropLast lastKey (.arr [.str s])))
          | v => .ok (.next (setPath data subs.dropLast lastKey (.arr [v])))

/-- The function `convertInputArrays(fields, data)` from lib/joi.js: each declared array
path is processed best-effort; a thrown error is swallowed by the
`catch (e) {}` and processing continues with the next path. -/
def convertInputArrays : List String → JVal → JVal
  | [], data => data
  | f :: rest, data =>
      match processPath data f with
      | .ok (.ret v) => v
      | .ok (.next v) => convertInputArrays rest v
      | .error _ => convertInputArrays rest data

/-- Reading a dotted path back out of a value, one `jsGet` per segment. -/
def readAt : JVal → List String → Except Unit JVal
  | cur, [] => .ok cur
  | cur, k :: rest =>
      match jsGet cur k with
      | .error e => .error e
      | .ok v => readAt v rest

/-- First segment of a declared array path (the only top-level key its
processing can touch). -/
def headKey (f : String) : String := (jsSplit '.' f).headD ""

/-- Divergence of two dotted paths, given as segment lists: true when they
differ at the first index where both are defined.  A read along a path that
diverges from a written path sees no effect of the write — neither path is
an ancestor of the other. -/
def pathDiverges : List String → List String → Bool
  | [], _ => false
  | _ :: _, [] => false
  | a :: as, b :: bs => if a = b then pathDiverges as bs else true

/-!
## Joi schema objects, as this plugin introspects them

The plugin only looks at a schema node's `type`, its keyed-child index
`_ids._byKey` (whose entries are `{schema, id}` records), the rendered custom
messages `_preferences.messages` (each entry's `.rendered` string), and the
attached `__arrayDefs` list. `SchemaChildren` is the `_byKey` index in
insertion order; each child is `(key, entry id, entry schema)`.
-/

mutual
inductive JoiSchema where
  | mk : String → SchemaChildren → Option (List (String × String)) →
         Option (List String) → JoiSchema
inductive SchemaChildren where
  | nil : SchemaChildren
  | cons : String → Option String → JoiSchema → SchemaChildren → SchemaChildren
end

/-- The node's `type` string. -/
def JoiSchema.stype : JoiSchema → String
  | .mk t _ _ _ => t

/-- The node's keyed-child index `_ids._byKey`, in insertion order. -/
def JoiSchema.children : JoiSchema → SchemaChildren
  | .mk _ cs _ _ => cs

/-- The node's custom messages `_preferences?.messages`, each already `.rendered`. -/
def JoiSchema.messages : JoiSchema → Option (List (String × String))
  | .mk _ _ m _ => m

/-- The `__arrayDefs` property attached by `JoiPlugin.schema`. -/
def JoiSchema.arrayDefs : JoiSchema → Option (List String)
  | .mk _ _ _ a => a

/-- The attach `schema.__arrayDefs = arrayDefs` (lib/joi.js line 78). -/
def setArrayDefs : JoiSchema → List String → JoiSchema
  | .mk t cs m _, a => .mk t cs m (some a)

/-- The lookup `_ids._byKey.get(key)`: the `{schema, id}` entry for a child key. -/
def byKeyGet : SchemaChildren → String → Option (Option String × JoiSchema)
  | .nil, _ => none
  | .cons k i s rest, key => if k = key then some (i, s) else byKeyGet rest key

/-!
## `getSchemaArrays` (lib/joi.js lines 193–204)

Depth-first walk collecting the dotted paths of all array-typed nodes; for
`object` nodes the children are visited first (in `_byKey` insertion order),
then the node itself is recorded if its `type` is `array`.
-/

mutual
def getSchemaArrays : JoiSchema → String → List String
  | .mk t cs _ _, field =>
      (if t = "object" then childArrays cs field else []) ++
      (if t = "array" then [field] else [])
def childArrays : SchemaChildren → String → List String
  | .nil, _ => []
  | .cons _ i s rest, field =>
      getSchemaArrays s (if field = "" then i.getD "" else field ++ "." ++ i.getD "") ++
      childArrays rest field
end

/-!
## The schema registry (`JoiPlugin.schema`, lib/joi.js lines 64–81)

`#schemas` is modelled as an association list in insertion order.  The
evaluation of `typeof defFn === 'function' ? defFn() : defFn` is modelled by
its result: `some r` for a produced schema, `none` for a falsy result (the JS
code would also store a truthy non-schema, which no claim is about).  The
`invoked` flag records whether the definition was evaluated at all (lines
75–80 are only reached on a cache miss).
-/

structure RegisterOut where
  schemas : List (String × JoiSchema)
  ret : Option JoiSchema
  invoked : Bool

namespace JoiPlugin

/-- One call to `JoiPlugin.schema(defFn, id)` with an explicit identifier:
return the cached entry if present (the definition is not evaluated);
otherwise evaluate the definition, return `false` (here `none`) when it is
falsy, else attach the non-empty array metadata and store the schema. -/
def schema (schemas : List (String × JoiSchema)) (defRes : Option JoiSchema)
    (id : String) : RegisterOut :=
  match alistGet schemas id with
  | some s => ⟨schemas, some s, false⟩
  | none =>
    match defRes with
    | none => ⟨schemas, none, true⟩
    | some r =>
      let arrayDefs := getSchemaArrays r ""
      let r := if arrayDefs.length > 0 then setArrayDefs r arrayDefs else r
      ⟨schemas ++ [(id, r)], some r, true⟩

end JoiPlugin

/-- A sequence of further registry calls (definition result and identifier),
folded through `JoiPlugin.schema`. -/
def applyOps (schemas : List (String × JoiSchema)) :
    List (Option JoiSchema × String) → List (String × JoiSchema)
  | [] => schemas
  | (defRes, id) :: rest => applyOps (JoiPlugin.schema schemas defRes id).schemas rest

/-!
## `getSchemaField` (lib/joi.js lines 172–188)

The loop pops segments from the END of the path and repeatedly does
`$p = $p._ids._byKey.get(f)` inside a `try`: on a schema node the map lookup
either yields the `{schema, id}` entry or `undefined` (no throw); on an entry
or on `undefined`, reading `._ids` (resp. `._byKey` of `undefined`) throws
and the loop breaks, keeping the previous `$p`.
-/

/-- What `$p` can be during the `getSchemaField` loop. -/
inductive PCur where
  | sch : JoiSchema → PCur
  | ent : Option String → JoiSchema → PCur
  | undefined : PCur

/-- The `while (r.length > 0)` loop of `getSchemaField` over the reversed
path (`r.pop()` takes the last element first). -/
def gsfLoop : PCur → List String → PCur
  | p, [] => p
  | .sch s, f :: rest =>
      gsfLoop (match byKeyGet s.children f with
               | some (i, c) => .ent i c
               | none => .undefined) rest
  | p, _ :: _ => p

/-- The function `getSchemaField(schema, path)`: returns the final `$p` when it is an entry
whose `id` equals the last path segment, else `null` (modelled `none`).
When the path is empty, `$p` is the schema itself and `$p.id` is the Joi
`.id()` method — a function, never equal to `path[path.length-1]`. -/
def getSchemaField (schema : JoiSchema) (path : List String) :
    Option (Option String × JoiSchema) :=
  match gsfLoop (.sch schema) path.reverse with
  | .ent i c =>
      match path.getLast? with
      | some last => if i = some last then some (i, c) else none
      | none => none
  | _ => none

/-!
## `handleJoiException` (lib/joi.js lines 129–166)
-/

/-- One entry of the Joi exception's `details` list. -/
structure Detail where
  path : List String
  type : String
  message : String

/-- One `{code, message}` entry of the structured error's `fields` lists. -/
structure FieldError where
  code : String
  message : String
deriving DecidableEq

/-- The thorin error thrown by `handleJoiException`. -/
structure StructuredError where
  code : String
  message : String
  errId : Option String
  fields : List (String × List FieldError)

/-- JS `msg.charAt(0).toUpperCase() + msg.substr(1)` (ASCII level). -/
def capitalizeFirst (s : String) : String :=
  match s.data with
  | [] => ""
  | c :: rest => String.mk (c.toUpper :: rest)

/-- Lines 156–159: strip a leading repetition of the field path (plus the one
character after it) when present, then capitalize the first character. -/
def transformMsg (fieldPath msg : String) : String :=
  capitalizeFirst
    (if strTake msg fieldPath.length = fieldPath then strDrop msg (fieldPath.length + 1) else msg)

/-- Lines 145–154: message precedence for one detail. Returns the resolved
message and whether the generic `any` fallback was used (in which case the
field path is added to `fieldsWithAny`). -/
def resolveMsg (schema : JoiSchema) (d : Detail) : String × Bool :=
  match getSchemaField schema d.path with
  | some (_, sch) =>
    match sch.messages with
    | some allMsg =>
      match alistGet allMsg d.type with
      | some m => (m, false)
      | none =>
        match alistGet allMsg "any" with
        | some m => (m, true)
        | none => (d.message, false)
    | none => (d.message, false)
  | none => (d.message, false)

/-- Append an entry to the list stored at key `p` (the key is present). -/
def pushField : List (String × List FieldError) → String → FieldError →
    List (String × List FieldError)
  | [], _, _ => []
  | (p', l) :: rest, p, e =>
      if p' = p then (p, l ++ [e]) :: rest else (p', l) :: pushField rest p e

/-- The body of one iteration of the `for` loop of `handleJoiException`:
state is `(err.data.fields, fieldsWithAny)`.  Note that the empty list for a
new field path is created *before* the `fieldsWithAny` skip check. -/
def processDetail (schema : JoiSchema)
    (st : List (String × List FieldError) × List String) (d : Detail) :
    List (String × List FieldError) × List String :=
  let fieldPath := jsJoin "." d.path
  let fields := if (alistGet st.1 fieldPath).isNone then st.1 ++ [(fieldPath, [])] else st.1
  if fieldPath ∈ st.2 then (fields, st.2)
  else
    let r := resolveMsg schema d
    let fwa := if r.2 then st.2 ++ [fieldPath] else st.2
    (pushField fields fieldPath ⟨d.type, transformMsg fieldPath r.1⟩, fwa)

/-- The function `handleJoiException(e, schema)` — the thrown thorin error.  A missing or
empty `details` list yields the generic `DATA.INVALID` error with no `fields`
map; otherwise the structured error is assembled detail by detail. -/
def handleJoiException (details : Option (List Detail)) (schema : JoiSchema) :
    StructuredError :=
  match details with
  | none => ⟨"DATA.INVALID", "Please provide valid data", none, []⟩
  | some [] => ⟨"DATA.INVALID", "Please provide valid data", none, []⟩
  | some ds =>
      ⟨"DATA.INVALID", "Request contains errors", some "data.request_validation",
       (ds.foldl (processDetail schema) ([], [])).1⟩

/-!
## The validate success path and option handling (`JoiPlugin.validate`,
lib/joi.js lines 92–122)
-/

namespace JoiPlugin

/-- Lines 95–96: `let isClean = opt.clean !== false; delete opt.clean;`.
Returns `isClean` and the caller's options object after the `delete`. -/
def validateOpt (opt : List (String × JVal)) : Bool × List (String × JVal) :=
  (notStrictFalse ((alistGet opt "clean").getD .undefined), alistDel opt "clean")

/-- Lines 105–118: reconcile the engine result `res` with the original
`input` (both objects).  `isClean` true: delete every key of `res` whose
value reads as `undefined` and return `res`.  `isClean` false: copy every
defined key of `res` onto `input` and return `input`. -/
def validateSuccess (isClean : Bool) (res input : List (String × JVal)) :
    List (String × JVal) :=
  let keys := res.map (fun p => p.1)
  if isClean then
    keys.foldl (fun r k => if isUndefined ((alistGet r k).getD .undefined) then alistDel r k else r) res
  else
    keys.foldl (fun inp k =>
      match alistGet res k with
      | some v => if isUndefined v then inp else alistSet inp k v
      | none => inp) input

end JoiPlugin

/-!
## Basic lemmas about the association-list object model
-/

theorem alistGet_set_self {α : Type} (l : List (String × α)) (k : String) (v : α) :
    alistGet (alistSet l k v) k = some v := by
  induction l with
  | nil => simp [alistSet, alistGet]
  | cons p rest ih =>
    obtain ⟨k', v'⟩ := p
    by_cases h : k' = k
    · simp [alistSet, h, alistGet]
    · simp [alistSet, h, alistGet, ih]

theorem alistGet_set_ne {α : Type} (l : List (String × α)) (k k' : String) (v : α)
    (h : k' ≠ k) : alistGet (alistSet l k v) k' = alistGet l k' := by
  induction l with
  | nil => simp [alistSet, alistGet, Ne.symm h]
  | cons p rest ih =>
    obtain ⟨k0, v0⟩ := p
    by_cases h0 : k0 = k
    · subst h0
      simp [alistSet, alistGet, Ne.symm h]
    · simp only [alistSet, if_neg h0, alistGet]
      by_cases h1 : k0 = k'
      · simp [h1]
      · simp [h1, ih]

theorem alistGet_del_self {α : Type} (l : List (String × α)) (k : String) :
    alistGet (alistDel l k) k = none := by
  induction l with
  | nil => simp [alistDel, alistGet]
  | cons p rest ih =>
    obtain ⟨k0, v0⟩ := p
    by_cases h0 : k0 = k
    · simpa [alistDel, h0] using ih
    · simpa [alistDel, alistGet, h0] using ih

theorem alistGet_del_ne {α : Type} (l : List (String × α)) (k k' : String) (h : k' ≠ k) :
    alistGet (alistDel l k) k' = alistGet l k' := by
  induction l with
  | nil => simp [alistDel, alistGet]
  | cons p rest ih =>
    obtain ⟨k0, v0⟩ := p
    by_cases h0 : k0 = k
    · subst h0
      simpa [alistDel, alistGet, Ne.symm h] using ih
    · by_cases h1 : k0 = k'
      · subst h1
        simp [alistDel, alistGet, h0]
      · simpa [alistDel, alistGet, h0, h1] using ih

theorem alistGet_append {α : Type} (l l2 : List (String × α)) (k : String) :
    alistGet (l ++ l2) k =
      match alistGet l k with
      | some v => some v
      | none => alistGet l2 k := by
  induction l with
  | nil => simp [alistGet]
  | cons p rest ih =>
    obtain ⟨k0, v0⟩ := p
    by_cases h0 : k0 = k
    · simp [alistGet, h0]
    · simp [alistGet, h0, ih]

theorem alistGet_mem_keys {α : Type} (l : List (String × α)) (k : String) (v : α)
    (h : alistGet l k = some v) : k ∈ l.map (fun p => p.1) := by
  induction l with
  | nil => simp [alistGet] at h
  | cons p rest ih =>
    obtain ⟨k0, v0⟩ := p
    by_cases h0 : k0 = k
    · simp [h0]
    · simp only [alistGet, if_neg h0] at h
      simp [ih h]

theorem alistGet_of_mem_keys {α : Type} (l : List (String × α)) (k : String)
    (h : k ∈ l.map (fun p => p.1)) : (alistGet l k).isSome := by
  induction l with
  | nil => simp at h
  | cons p rest ih =>
    obtain ⟨k0, v0⟩ := p
    by_cases h0 : k0 = k
    · simp [alistGet, h0]
    · simp only [List.map_cons, List.mem_cons] at h
      rcases h with h | h
    
      · exact absurd h.symm h0
      · simp [alistGet, h0, ih h]

theorem char_toUpper_idem (c : Char) : c.toUpper.toUpper = c.toUpper := by
  unfold Char.toUpper
  by_cases h : c.toNat ≥ 97 ∧ c.toNat ≤ 122
  · rw [if_pos h]
    have hval : (Char.ofNat (c.toNat - 32)).toNat = c.toNat - 32 := by
      have hv : (c.toNat - 32).isValidChar := Or.inl (by omega)
      rw [Char.ofNat, dif_pos hv]
      rfl
    rw [if_neg]
    rw [hval]
    omega
  · rw [if_neg h, if_neg h]

/-!
## The validate success path (claim C1) and option handling (claim C10)
-/

theorem cleanFold_get (ks : List String) (r : List (String × JVal)) (k : String) :
    alistGet (ks.foldl
        (fun r k => if isUndefined ((alistGet r k).getD .undefined) then alistDel r k else r) r) k =
      if k ∈ ks ∧ isUndefined ((alistGet r k).getD .undefined) = true then none else alistGet r k := by
  induction ks generalizing r with
  | nil => simp
  | cons k0 ks ih =>
    simp only [List.foldl_cons]
    by_cases hk : k0 = k
    · subst hk
      by_cases hu : isUndefined ((alistGet r k0).getD .undefined) = true
      · rw [if_pos hu, ih, alistGet_del_self]
        simp [hu]
      · rw [if_neg hu, ih]
        simp only [List.mem_cons]
        rw [if_neg, if_neg]
        · rintro ⟨-, hc⟩
          exact hu hc
        · rintro ⟨-, hc⟩
          exact hu hc
    · have hstep : alistGet (if isUndefined ((alistGet r k0).getD .undefined) then alistDel r k0 else r) k
          = alistGet r k := by
        by_cases hu : isUndefined ((alistGet r k0).getD .undefined) = true
        · rw [if_pos hu, alistGet_del_ne]
          exact fun hh => hk hh.symm
        · rw [if_neg hu]
      rw [ih, hstep]
      simp only [List.mem_cons]
      have hk2 : ¬ (k = k0) := fun hh => hk hh.symm
      by_cases hmem : k ∈ ks
      · simp [hmem, hk2]
      · simp [hmem, hk2]

theorem mergeFold_get (res : List (String × JVal)) (ks : List String)
    (inp : List (String × JVal)) (k : String) :
    alistGet (ks.foldl
        (fun inp k =>
          match alistGet res k with
          | some v => if isUndefined v then inp else alistSet inp k v
          | none => inp) inp) k =
      if k ∈ ks ∧ (alistGet res k).any (fun v => !isUndefined v) = true
      then alistGet res k else alistGet inp k := by
  induction ks generalizing inp with
  | nil => simp
  | cons k0 ks ih =>
    simp only [List.foldl_cons]
    by_cases hk : k0 = k
    · subst hk
      rcases hres : alistGet res k0 with - | v
      · rw [ih]
        simp [hres]
      · by_cases hu : isUndefined v = true
        · rw [ih]
          simp [hres, hu]
        · rw [ih]
          have hget : alistGet (alistSet inp k0 v) k0 = some v := alistGet_set_self inp k0 v
          simp only [hres, hu, if_neg, ite_false, Bool.not_eq_true']
          simp [hres, hu, hget, Option.any]
    · have hstep : alistGet (match alistGet res k0 with
          | some v => if isUndefined v then inp else alistSet inp k0 v
          | none => inp) k = alistGet inp k := by
        rcases hres : alistGet res k0 with - | v
        · rfl
        · by_cases hu : isUndefined v = true
          · simp [hu]
          · simp only [hu, Bool.false_eq_true, if_false]
            exact alistGet_set_ne inp k0 k v (fun hh => hk hh.symm)
      rw [ih, hstep]
      simp only [List.mem_cons]
      have hk2 : ¬ (k = k0) := fun hh => hk hh.symm
      by_cases hmem : k ∈ ks
      · simp [hmem, hk2]
      · simp [hmem, hk2]

/-- C1.  On the success path of `JoiPlugin.validate` (engine result `res`, an
object): with `isClean` true the returned object is the engine result with
every key whose value is `undefined` removed; with `isClean` false every
defined key of the result is copied onto the original `input` object and the
keys of `input` that the engine dropped keep their values (the code returns
that same `input` object, here represented by its post-call state). -/
theorem validate_success_clean_merge :
    (∀ (res input : List (String × JVal)) (k : String),
        alistGet (JoiPlugin.validateSuccess true res input) k =
          if (alistGet res k).any (fun v => !isUndefined v) = true
          then alistGet res k else none) ∧
    (∀ (res input : List (String × JVal)) (k : String),
        alistGet (JoiPlugin.validateSuccess false res input) k =
          if (alistGet res k).any (fun v => !isUndefined v) = true
          then alistGet res k else alistGet input k) := by
  constructor
  · intro res input k
    have hval : JoiPlugin.validateSuccess true res input
        = (res.map (fun p => p.1)).foldl
            (fun r k => if isUndefined ((alistGet r k).getD .undefined) then alistDel r k else r) res := rfl
    rw [hval, cleanFold_get]
    rcases hres : alistGet res k with - | v
    · simp [hres]
    · have hmem : k ∈ res.map (fun p => p.1) := alistGet_mem_keys res k v hres
      by_cases hu : isUndefined v = true
      · simp [hres, hmem, hu]
      · simp [hres, hmem, hu]
  · intro res input k
    have hval : JoiPlugin.validateSuccess false res input
        = (res.map (fun p => p.1)).foldl
            (fun inp k =>
              match alistGet res k with
              | some v => if isUndefined v then inp else alistSet inp k v
              | none => inp) input := rfl
    rw [hval, mergeFold_get]
    rcases hres : alistGet res k with - | v
    · simp [hres]
    · have hmem : k ∈ res.map (fun p => p.1) := alistGet_mem_keys res k v hres
      by_cases hu : isUndefined v = true
      · simp [hres, hmem, hu]
      · simp [hres, hmem, hu]

/-- C10.  `JoiPlugin.validate` executes `delete opt.clean` on the
caller-supplied options object itself: after the call the caller's object has
no `clean` key any more, while every other key is untouched.  (The merged
options forwarded to the engine are built from this already-mutated object.) -/
theorem validate_opt_mutates_caller (opt : List (String × JVal))
    (_h : (alistGet opt "clean").isSome = true) :
    alistGet (JoiPlugin.validateOpt opt).2 "clean" = none ∧
    (∀ k, k ≠ "clean" → alistGet (JoiPlugin.validateOpt opt).2 k = alistGet opt k) := by
  constructor
  · exact alistGet_del_self opt "clean"
  · intro k hk
    exact alistGet_del_ne opt "clean" k hk

/-- Witness for C10 at a concrete options object `{clean: false, convert: true}`. -/
theorem validate_opt_mutates_caller_witness :
    (alistGet [("clean", JVal.bool false), ("convert", JVal.bool true)] "clean").isSome = true ∧
    alistGet (JoiPlugin.validateOpt
      [("clean", JVal.bool false), ("convert", JVal.bool true)]).2 "clean" = none ∧
    alistGet (JoiPlugin.validateOpt
      [("clean", JVal.bool false), ("convert", JVal.bool true)]).2 "convert"
      = some (JVal.bool true) := by
  have T := validate_opt_mutates_caller
    [("clean", JVal.bool false), ("convert", JVal.bool true)] (by rfl)
  exact ⟨rfl, T.1, T.2 "convert" (by decide)⟩

/-!
## The schema registry (claims C3 and C9)
-/

theorem schema_hit (schemas : List (String × JoiSchema)) (defRes : Option JoiSchema)
    (id : String) (s : JoiSchema) (h : alistGet schemas id = some s) :
    JoiPlugin.schema schemas defRes id = ⟨schemas, some s, false⟩ := by
  unfold JoiPlugin.schema
  rw [h]

theorem schema_preserves_get (schemas : List (String × JoiSchema))
    (defRes : Option JoiSchema) (id' id : String) (s : JoiSchema)
    (h : alistGet schemas id = some s) :
    alistGet (JoiPlugin.schema schemas defRes id').schemas id = some s := by
  unfold JoiPlugin.schema
  rcases hhit : alistGet schemas id' with - | s'
  · rcases defRes with - | r
    · simpa using h
    · simp only []
      rw [alistGet_append]
      simp only [h]
  · simpa [hhit] using h

theorem applyOps_preserves_get (ops : List (Option JoiSchema × String))
    (schemas : List (String × JoiSchema)) (id : String) (s : JoiSchema)
    (h : alistGet schemas id = some s) :
    alistGet (applyOps schemas ops) id = some s := by
  induction ops generalizing schemas with
  | nil => simpa [applyOps] using h
  | cons op rest ih =>
    obtain ⟨defRes, id'⟩ := op
    exact ih _ (schema_preserves_get schemas defRes id' id s h)

/-- C3.  Registration is idempotent per identifier: a first call with a fresh
identifier evaluates the definition and stores the produced schema instance;
a second call with the same identifier returns that exact stored instance
without evaluating its definition, leaves the registry untouched, and the
identifier keeps resolving to that same instance after any further sequence
of registry calls. -/
theorem schema_register_idempotent (schemas : List (String × JoiSchema))
    (r : JoiSchema) (id : String) (defRes2 : Option JoiSchema)
    (ops : List (Option JoiSchema × String))
    (h : alistGet schemas id = none) :
    (JoiPlugin.schema schemas (some r) id).invoked = true ∧
    ((JoiPlugin.schema schemas (some r) id).ret).isSome = true ∧
    (JoiPlugin.schema (JoiPlugin.schema schemas (some r) id).schemas defRes2 id).ret
      = (JoiPlugin.schema schemas (some r) id).ret ∧
    (JoiPlugin.schema (JoiPlugin.schema schemas (some r) id).schemas defRes2 id).invoked
      = false ∧
    (JoiPlugin.schema (JoiPlugin.schema schemas (some r) id).schemas defRes2 id).schemas
      = (JoiPlugin.schema schemas (some r) id).schemas ∧
    alistGet (applyOps (JoiPlugin.schema schemas (some r) id).schemas ops) id
      = (JoiPlugin.schema schemas (some r) id).ret := by
  have ho1 : JoiPlugin.schema schemas (some r) id =
      ⟨schemas ++ [(id, if (getSchemaArrays r "").length > 0
                        then setArrayDefs r (getSchemaArrays r "") else r)],
       some (if (getSchemaArrays r "").length > 0
             then setArrayDefs r (getSchemaArrays r "") else r), true⟩ := by
    unfold JoiPlugin.schema
    rw [h]
  have hget : alistGet (JoiPlugin.schema schemas (some r) id).schemas id
      = some (if (getSchemaArrays r "").length > 0
              then setArrayDefs r (getSchemaArrays r "") else r) := by
    rw [ho1]
    rw [alistGet_append]
    simp [h, alistGet]
  have ho2 : JoiPlugin.schema (JoiPlugin.schema schemas (some r) id).schemas defRes2 id =
      ⟨(JoiPlugin.schema schemas (some r) id).schemas,
       some (if (getSchemaArrays r "").length > 0
             then setArrayDefs r (getSchemaArrays r "") else r), false⟩ :=
    schema_hit _ defRes2 id _ hget
  refine ⟨by rw [ho1], by rw [ho1]; rfl, by rw [ho2, ho1], by rw [ho2], by rw [ho2], ?_⟩
  rw [applyOps_preserves_get ops _ id _ hget, ho1]

/-- Witness for C3: a fresh registration under id `x`, re-registration, and a
later unrelated registration under id `y`. -/
theorem schema_register_idempotent_witness :
    (alistGet ([] : List (String × JoiSchema)) "x" = none) ∧
    (JoiPlugin.schema [] (some (.mk "object" .nil none none)) "x").invoked = true ∧
    (JoiPlugin.schema (JoiPlugin.schema [] (some (.mk "object" .nil none none)) "x").schemas
        none "x").ret = (JoiPlugin.schema [] (some (.mk "object" .nil none none)) "x").ret ∧
    (JoiPlugin.schema (JoiPlugin.schema [] (some (.mk "object" .nil none none)) "x").schemas
        none "x").invoked = false ∧
    alistGet (applyOps (JoiPlugin.schema (JoiPlugin.schema []
        (some (.mk "object" .nil none none)) "x").schemas none "x").schemas
        [(some (.mk "string" .nil none none), "y")]) "x"
      = (JoiPlugin.schema [] (some (.mk "object" .nil none none)) "x").ret := by
  have T := schema_register_idempotent [] (.mk "object" .nil none none) "x" none
    [(some (.mk "string" .nil none none), "y")] rfl
  refine ⟨rfl, T.1, T.2.2.1, T.2.2.2.1, ?_⟩
  rw [T.2.2.2.2.1]
  exact T.2.2.2.2.2

/-- C9.  When the identifier is not cached and the evaluated definition is
falsy, `JoiPlugin.schema` returns the failure sentinel `false` (here `none`),
stores nothing, and — being a total function with no throw path — raises no
exception. -/
theorem schema_register_falsy (schemas : List (String × JoiSchema)) (id : String)
    (h : alistGet schemas id = none) :
    JoiPlugin.schema schemas none id = ⟨schemas, none, true⟩ := by
  unfold JoiPlugin.schema
  rw [h]

/-- Witness for C9 at the empty registry and id `x`. -/
theorem schema_register_falsy_witness :
    (alistGet ([] : List (String × JoiSchema)) "x" = none) ∧
    JoiPlugin.schema [] none "x" = ⟨[], none, true⟩ :=
  ⟨rfl, schema_register_falsy [] "x" rfl⟩

/-!
## Array coercion (claims C4, C7, C8)
-/

theorem isObjectType_not_undef (v : JVal) (h : isObjectType v = true) : isUndefined v = false := by
  cases v <;> simp_all [isObjectType, isUndefined]

theorem walkSegs_false (ks : List String) (cur : JVal) (p : JVal × Bool)
    (h : walkSegs cur false ks = .ok p) : p.2 = false := by
  induction ks generalizing cur with
  | nil =>
    simp only [walkSegs] at h
    cases h
    rfl
  | cons k ks ih =>
    rcases hjv : jsGet cur k with e | v
    · simp only [walkSegs, hjv] at h
      cases h
    · simp only [walkSegs, hjv] at h
      by_cases hobj : isObjectType v = true
      · rw [if_pos hobj] at h
        exact ih _ h
      · rw [if_neg hobj] at h
        exact ih _ h

theorem arrIndex?_repr (s : String) (i : Nat) (h : arrIndex? s = some i) :
    Nat.repr i = s := by
  unfold arrIndex? at h
  by_cases hc : Nat.repr (s.data.foldl (fun acc c => acc * 10 + (c.toNat - 48)) 0) = s
  · simp only [hc, if_pos] at h
    cases h
    exact hc
  · simp [hc] at h

theorem jsGet_jsSet_self (cur : JVal) (k : String) (v cv : JVal)
    (hget : jsGet cur k = .ok cv) (hcv : isUndefined cv = false) :
    jsGet (jsSet cur k v) k = .ok v := by
  cases cur with
  | undefined => simp [jsGet] at hget
  | null => simp [jsGet] at hget
  | obj fs => simp [jsGet, jsSet, alistGet_set_self]
  | arr xs =>
    rcases hidx : arrIndex? k with - | i
    · simp only [jsGet, hidx, Except.ok.injEq] at hget
      subst hget
      simp [isUndefined] at hcv
    · simp only [jsGet, hidx, Except.ok.injEq] at hget
      have hlt : i < xs.length := by
        by_contra hge
        have hnone : xs[i]? = none := by
          rw [List.getElem?_eq_none]
          omega
        rw [hnone] at hget
        simp only [Option.getD_none] at hget
        subst hget
        simp [isUndefined] at hcv
      simp only [jsSet, hidx, jsGet]
      rw [List.getElem?_set_self (by simpa using hlt)]
      rfl
  | bool b =>
    simp only [jsGet, Except.ok.injEq] at hget
    subst hget
    simp [isUndefined] at hcv
  | num n =>
    simp only [jsGet, Except.ok.injEq] at hget
    subst hget
    simp [isUndefined] at hcv
  | str s =>
    simp only [jsGet, Except.ok.injEq] at hget
    subst hget
    simp [isUndefined] at hcv

theorem jsGet_jsSet_ne (cur : JVal) (k0 k : String) (v : JVal) (h : ¬ k = k0) :
    jsGet (jsSet cur k0 v) k = jsGet cur k := by
  cases cur with
  | undefined => rfl
  | null => rfl
  | obj fs => simp [jsGet, jsSet, alistGet_set_ne fs k0 k v h]
  | arr xs =>
    rcases hidx0 : arrIndex? k0 with - | i0
    · simp [jsSet, hidx0]
    · simp only [jsSet, hidx0, jsGet]
      rcases hidx : arrIndex? k with - | i
      · simp only [hidx]
      · have hne : ¬ i0 = i := by
          intro he
          subst he
          exact h ((arrIndex?_repr k i0 hidx).symm.trans (arrIndex?_repr k0 i0 hidx0))
        simp only [hidx]
        rw [List.getElem?_set_ne hne]
  | bool b => rfl
  | num n => rfl
  | str s => rfl

theorem readAt_setPath (ks : List String) (cur fo : JVal)
    (hwalk : walkSegs cur true ks = .ok (fo, true))
    (last : String) (nv cv : JVal)
    (hget : jsGet fo last = .ok cv) (hcv : isUndefined cv = false) :
    readAt (setPath cur ks last nv) (ks ++ [last]) = .ok nv := by
  induction ks generalizing cur with
  | nil =>
    simp only [walkSegs, Except.ok.injEq, Prod.mk.injEq] at hwalk
    obtain ⟨rfl, -⟩ := hwalk
    simp only [setPath, List.nil_append, readAt]
    rw [jsGet_jsSet_self cur last nv cv hget hcv]
  | cons k ks ih =>
    rcases hjv : jsGet cur k with e | v
    · simp only [walkSegs, hjv] at hwalk
      cases hwalk
    · simp only [walkSegs, hjv] at hwalk
      by_cases hobj : isObjectType v = true
      · rw [if_pos hobj] at hwalk
        simp only [setPath, hjv, List.cons_append, readAt]
        rw [jsGet_jsSet_self cur k _ v hjv (isObjectType_not_undef v hobj)]
        exact ih v hwalk
      · rw [if_neg hobj] at hwalk
        have := walkSegs_false ks cur (fo, true) hwalk
        simp at this

theorem jsGet_setPath_ne (ks : List String) (cur : JVal) (last : String) (v : JVal)
    (k : String) (h : ¬ k = (ks ++ [last]).headD "") :
    jsGet (setPath cur ks last v) k = jsGet cur k := by
  cases ks with
  | nil =>
    simp only [List.nil_append, List.headD_cons] at h
    exact jsGet_jsSet_ne cur last k v h
  | cons k0 ks =>
    simp only [List.cons_append, List.headD_cons] at h
    exact jsGet_jsSet_ne cur k0 k _ h

theorem dropLast_concat_head (subs : List String) :
    (subs.dropLast ++ [(subs.getLast?).getD ""]).headD "" = subs.headD "" := by
  cases subs with
  | nil => rfl
  | cons a as =>
    cases as with
    | nil => rfl
    | cons b bs => simp [List.dropLast]

/-- C8.  Errors while processing one declared array path (modelled by the
`Except` failure of `processPath`, e.g. a property read through `null`) are
swallowed by the per-path `try { } catch {}`: the result is as if the failing
path were skipped, processing continues with the next path, and
`convertInputArrays` — a total function — always returns a value, so coercion
never fails the enclosing validate call. -/
theorem convertInputArrays_swallows (f : String) (rest : List String) (data : JVal)
    (herr : processPath data f = .error ()) :
    convertInputArrays (f :: rest) data = convertInputArrays rest data := by
  simp only [convertInputArrays, herr]

/-- Witness for C8: the path `a.b.c` over `{a: null}` throws while walking
(`null.b`), is swallowed, and coercion returns the input unchanged. -/
theorem convertInputArrays_swallows_witness :
    processPath (.obj [("a", JVal.null)]) "a.b.c" = .error () ∧
    convertInputArrays ["a.b.c"] (.obj [("a", JVal.null)])
      = convertInputArrays [] (.obj [("a", JVal.null)]) ∧
    convertInputArrays ["a.b.c"] (.obj [("a", JVal.null)]) = .obj [("a", JVal.null)] := by
  refine ⟨rfl, ?_, rfl⟩
  exact convertInputArrays_swallows "a.b.c" [] (.obj [("a", JVal.null)]) rfl

theorem processPath_shapes (data : JVal) (f : String) (hf : ¬ f = "") :
    processPath data f = .ok (.ret data) ∨ processPath data f = .ok (.next data) ∨
    processPath data f = .error () ∨
    ∃ nv, processPath data f =
      .ok (.next (setPath data (jsSplit '.' f).dropLast
            (((jsSplit '.' f).getLast?).getD "") nv)) := by
  unfold processPath
  rw [if_neg hf]
  by_cases hobj : isObjTruthy data = false
  · rw [if_pos hobj]
    exact Or.inl rfl
  · rw [if_neg hobj]
    rcases hw : walkSegs data true (jsSplit '.' f).dropLast with e | pr
    · cases e
      refine Or.inr (Or.inr (Or.inl ?_))
      simp only [hw]
    · obtain ⟨fo, valid⟩ := pr
      by_cases hvalid : valid = false
      · subst hvalid
        refine Or.inr (Or.inl ?_)
        simp [hw]
      · rcases hg : jsGet fo (((jsSplit '.' f).getLast?).getD "") with e | cv
        · cases e
          refine Or.inr (Or.inr (Or.inl ?_))
          simp only [hw, if_neg hvalid, hg]
        · rcases cv with - | - | b | n | s | xs | fs
          · refine Or.inr (Or.inl ?_)
            simp only [hw, if_neg hvalid, hg]
          · refine Or.inr (Or.inr (Or.inr ⟨.arr [.null], ?_⟩))
            simp only [hw, if_neg hvalid, hg]
          · refine Or.inr (Or.inr (Or.inr ⟨.arr [.bool b], ?_⟩))
            simp only [hw, if_neg hvalid, hg]
          · refine Or.inr (Or.inr (Or.inr ⟨.arr [.num n], ?_⟩))
            simp only [hw, if_neg hvalid, hg]
          · by_cases hs : s ≠ ""
            · by_cases hc : jsContains s ',' = true
              · refine Or.inr (Or.inr (Or.inr
                  ⟨.arr ((jsSplit ',' s).map (fun v => .str (jsTrim v))), ?_⟩))
                simp only [hw, if_neg hvalid, hg]
                rw [if_pos hs, if_pos hc]
              · refine Or.inr (Or.inr (Or.inr ⟨.arr [.str s], ?_⟩))
                simp only [hw, if_neg hvalid, hg]
                rw [if_pos hs, if_neg hc]
            · refine Or.inr (Or.inr (Or.inr ⟨.arr [.str s], ?_⟩))
              simp only [hw, if_neg hvalid, hg]
              rw [if_neg hs]
          · refine Or.inr (Or.inl ?_)
            simp only [hw, if_neg hvalid, hg]
          · refine Or.inr (Or.inr (Or.inr ⟨.arr [.obj fs], ?_⟩))
            simp only [hw, if_neg hvalid, hg]

theorem jsSplitList_ne_nil (sep : Char) (l : List Char) : ¬ jsSplitList sep l = [] := by
  induction l with
  | nil => simp [jsSplitList]
  | cons c rest ih =>
    simp only [jsSplitList]
    by_cases hc : c = sep
    · simp [hc]
    · rw [if_neg hc]
      rcases h : jsSplitList sep rest with - | ⟨g, gs⟩
      · simp
      · simp

theorem jsSplit_ne_nil (sep : Char) (s : String) : ¬ jsSplit sep s = [] := by
  unfold jsSplit
  intro h
  exact jsSplitList_ne_nil sep s.data (List.map_eq_nil_iff.mp h)

theorem dropLast_concat_getLastD (l : List String) (h : ¬ l = []) :
    l.dropLast ++ [(l.getLast?).getD ""] = l := by
  rw [List.getLast?_eq_getLast l h]
  exact List.dropLast_concat_getLast h

theorem pathDiverges_nil_right (q : List String) : pathDiverges q [] = false := by
  cases q <;> rfl

/-- Writing `cur[k] = W` either makes `cur[k]` read back as `W` (with the old
read also defined), or leaves the value entirely unchanged (write on a
primitive, on an array at a non-index key, or past the end of an array). -/
theorem jsSet_get_or_id (cur : JVal) (k : String) (W : JVal) :
    (jsGet (jsSet cur k W) k = .ok W ∧ ∃ v, jsGet cur k = .ok v) ∨ jsSet cur k W = cur := by
  cases cur with
  | obj fs => exact Or.inl ⟨by simp [jsGet, jsSet, alistGet_set_self], ⟨_, rfl⟩⟩
  | arr xs =>
    rcases hidx : arrIndex? k with - | i
    · right
      simp [jsSet, hidx]
    · by_cases hlt : i < xs.length
      · left
        refine ⟨?_, ⟨_, rfl⟩⟩
        simp only [jsSet, hidx, jsGet]
        rw [List.getElem?_set_self (by simpa using hlt)]
        rfl
      · right
        simp only [jsSet, hidx]
        rw [List.set_eq_of_length_le (by omega)]
  | undefined => right; rfl
  | null => right; rfl
  | bool b => right; rfl
  | num n => right; rfl
  | str s => right; rfl

/-- A nested write along one path is invisible to a read along any path that
diverges from it. -/
theorem readAt_setPath_diverge (init : List String) (last : String) (nv : JVal)
    (q : List String) (cur : JVal)
    (hdiv : pathDiverges q (init ++ [last]) = true) :
    readAt (setPath cur init last nv) q = readAt cur q := by
  induction init generalizing q cur with
  | nil =>
    cases q with
    | nil => simp [pathDiverges] at hdiv
    | cons q0 qrest =>
      by_cases hq : q0 = last
      · rw [List.nil_append] at hdiv
        simp only [pathDiverges, if_pos hq, pathDiverges_nil_right] at hdiv
        simp at hdiv
      · simp only [setPath, readAt]
        rw [jsGet_jsSet_ne cur last q0 nv hq]
  | cons k rest ih =>
    cases q with
    | nil => simp [pathDiverges] at hdiv
    | cons q0 qrest =>
      by_cases hq : q0 = k
      · subst hq
        have hdiv2 : pathDiverges qrest (rest ++ [last]) = true := by
          simpa [pathDiverges] using hdiv
        rcases jsSet_get_or_id cur q0
            (setPath (match jsGet cur q0 with | .ok w => w | .error _ => .undefined)
              rest last nv) with ⟨h1, v, hv⟩ | h2
        · rw [hv] at h1
          simp only [setPath, readAt, hv, h1]
          exact ih qrest v hdiv2
        · simp only [setPath]
          rw [h2]
      · simp only [setPath, readAt]
        rw [jsGet_jsSet_ne cur k q0 _ hq]

/-- C7.  Copy-on-write frame discipline of `convertInputArrays`, at full
dotted-path depth: a read along any (nested) path that diverges from every
declared array path — so in particular every field not identified by
`arrayPaths`, at any depth — reads back unchanged from the result; a
non-object input is passed through unchanged when no root path is declared;
and under a root (empty-string) array path the input is returned as-is when
it is already an array and is wrapped into a one-element array otherwise
(in particular for non-object inputs). -/
theorem convertInputArrays_frame :
    (∀ (fields : List String) (data : JVal) (q : List String),
        ¬ "" ∈ fields →
        (∀ f ∈ fields, pathDiverges q (jsSplit '.' f) = true) →
        readAt (convertInputArrays fields data) q = readAt data q) ∧
    (∀ (fields : List String) (data : JVal),
        ¬ "" ∈ fields → isObjTruthy data = false →
        convertInputArrays fields data = data) ∧
    (∀ (rest : List String) (xs : List JVal),
        convertInputArrays ("" :: rest) (.arr xs) = .arr xs) ∧
    (∀ (rest : List String) (data : JVal), (∀ xs, ¬ data = .arr xs) →
        convertInputArrays ("" :: rest) data = .arr [data]) := by
  refine ⟨?_, ?_, ?_, ?_⟩
  · intro fields
    induction fields with
    | nil =>
      intro data q _ _
      rfl
    | cons f rest ih =>
      intro data q hroot hdiv
      have hf : ¬ f = "" := fun hh => hroot (by simp [hh])
      have hroot2 : ¬ "" ∈ rest := fun hh => hroot (List.mem_cons_of_mem _ hh)
      have hdivf : pathDiverges q (jsSplit '.' f) = true := hdiv f (List.mem_cons_self f rest)
      have hdivrest : ∀ g ∈ rest, pathDiverges q (jsSplit '.' g) = true :=
        fun g hg => hdiv g (List.mem_cons_of_mem _ hg)
      rcases processPath_shapes data f hf with hs | hs | hs | ⟨nv, hs⟩
      · simp only [convertInputArrays, hs]
      · simp only [convertInputArrays, hs]
        exact ih data q hroot2 hdivrest
      · simp only [convertInputArrays, hs]
        exact ih data q hroot2 hdivrest
      · simp only [convertInputArrays, hs]
        rw [ih _ q hroot2 hdivrest]
        refine readAt_setPath_diverge _ _ nv q data ?_
        rw [dropLast_concat_getLastD _ (jsSplit_ne_nil '.' f)]
        exact hdivf
  · intro fields data hroot hno
    cases fields with
    | nil => rfl
    | cons f rest =>
      have hf : ¬ f = "" := fun hh => hroot (by simp [hh])
      have hs : processPath data f = .ok (.ret data) := by
        unfold processPath
        rw [if_neg hf, if_pos hno]
      simp only [convertInputArrays, hs]
  · intro rest xs
    rfl
  · intro rest data h
    cases data with
    | arr xs => exact absurd rfl (h xs)
    | undefined => rfl
    | null => rfl
    | bool b => rfl
    | num n => rfl
    | str s => rfl
    | obj fs => rfl

/-- Witness for C7: the nested path list `["a.b"]` coerces `a.b` but leaves
the sibling `a.c` unchanged; a top-level sibling is likewise untouched; a
string input passes through when no root path is declared; a root path keeps
an array and wraps a number. -/
theorem convertInputArrays_frame_witness :
    readAt (convertInputArrays ["a.b"]
        (.obj [("a", .obj [("b", .str "x"), ("c", .str "y")])])) ["a", "c"]
      = readAt (.obj [("a", .obj [("b", .str "x"), ("c", .str "y")])]) ["a", "c"] ∧
    readAt (convertInputArrays ["a"] (.obj [("a", .num 1), ("b", .num 2)])) ["b"]
      = readAt (.obj [("a", .num 1), ("b", .num 2)]) ["b"] ∧
    convertInputArrays ["a"] (.str "x") = .str "x" ∧
    convertInputArrays [""] (.arr [.num 7]) = .arr [.num 7] ∧
    convertInputArrays [""] (.num 7) = .arr [.num 7] ∧
    convertInputArrays ["a.b"] (.obj [("a", .obj [("b", .str "x"), ("c", .str "y")])])
      = .obj [("a", .obj [("b", .arr [.str "x"]), ("c", .str "y")])] := by
  refine ⟨?_, ?_, ?_, ?_, ?_, rfl⟩
  · exact convertInputArrays_frame.1 ["a.b"] _ ["a", "c"] (by decide) (by decide)
  · exact convertInputArrays_frame.1 ["a"] _ ["b"] (by decide) (by decide)
  · exact convertInputArrays_frame.2.1 ["a"] (.str "x") (by decide) rfl
  · exact convertInputArrays_frame.2.2.1 [] [.num 7]
  · exact convertInputArrays_frame.2.2.2 [] (.num 7) (fun xs h => by cases h)

/-- C4.  Final-segment behaviour of array coercion, for a declared non-root
path whose intermediate segments resolve (the walk stays valid and does not
throw): an `undefined` or already-array value is left unchanged; a string
containing a comma is replaced by the array of its comma-separated pieces,
each trimmed; any other value is replaced by a one-element array wrapping it. -/
theorem convertInputArrays_final_segment
    (data fo cv : JVal) (f : String) (init : List String) (last : String)
    (hf : ¬ f = "") (hobj : isObjTruthy data = true)
    (hsubs : jsSplit '.' f = init ++ [last])
    (hwalk : walkSegs data true init = .ok (fo, true))
    (hget : jsGet fo last = .ok cv) :
    (cv = .undefined → convertInputArrays [f] data = data) ∧
    (∀ xs, cv = .arr xs → convertInputArrays [f] data = data) ∧
    (∀ s, cv = .str s → jsContains s ',' = true →
        readAt (convertInputArrays [f] data) (init ++ [last])
          = .ok (.arr ((jsSplit ',' s).map (fun v => .str (jsTrim v))))) ∧
    (isUndefined cv = false → (∀ xs, ¬ cv = .arr xs) →
        (∀ s, cv = .str s → jsContains s ',' = false) →
        readAt (convertInputArrays [f] data) (init ++ [last]) = .ok (.arr [cv])) := by
  have hno : ¬ isObjTruthy data = false := by
    rw [hobj]
    intro h
    cases h
  have hdl : (jsSplit '.' f).dropLast = init := by
    rw [hsubs]
    exact List.dropLast_concat
  have hgl : ((jsSplit '.' f).getLast?).getD "" = last := by
    rw [hsubs]
    simp
  have hPbase : processPath data f =
      (match cv with
       | .undefined => Except.ok (.next data)
       | .arr _ => .ok (.next data)
       | .str s =>
         if s ≠ "" then
           if jsContains s ',' = true then
             .ok (.next (setPath data init last
                (.arr ((jsSplit ',' s).map (fun v => .str (jsTrim v))))))
           else .ok (.next (setPath data init last (.arr [.str s])))
         else .ok (.next (setPath data init last (.arr [.str s])))
       | v => .ok (.next (setPath data init last (.arr [v])))) := by
    unfold processPath
    rw [if_neg hf, if_neg hno]
    simp only [hdl, hgl, hwalk, hget]
    rw [if_neg (show ¬ (true = false) by decide)]
    cases cv <;> rfl
  have hread : isUndefined cv = false → ∀ nv,
      processPath data f = .ok (.next (setPath data init last nv)) →
      readAt (convertInputArrays [f] data) (init ++ [last]) = .ok nv := by
    intro hcvf nv hP
    have hconv : convertInputArrays [f] data = setPath data init last nv := by
      simp only [convertInputArrays, hP]
    rw [hconv]
    exact readAt_setPath init data fo hwalk last nv cv hget hcvf
  refine ⟨?_, ?_, ?_, ?_⟩
  · intro hcv
    subst hcv
    simp only [convertInputArrays, hPbase]
  · intro xs hcv
    subst hcv
    simp only [convertInputArrays, hPbase]
  · intro s hcv hcomma
    subst hcv
    have hs : ¬ s = "" := by
      intro h
      subst h
      exact absurd hcomma (by decide)
    refine hread rfl _ ?_
    rw [hPbase]
    simp [hs, hcomma]
  · intro h1 h2 h3
    cases cv with
    | undefined => simp [isUndefined] at h1
    | arr xs => exact absurd rfl (h2 xs)
    | str s =>
      have hc := h3 s rfl
      by_cases hs : s = ""
      · subst hs
        refine hread rfl _ ?_
        rw [hPbase]
        simp
      · refine hread rfl _ ?_
        rw [hPbase]
        simp [hs, hc]
    | null => exact hread rfl _ (by rw [hPbase])
    | bool b => exact hread rfl _ (by rw [hPbase])
    | num n => exact hread rfl _ (by rw [hPbase])
    | obj fs => exact hread rfl _ (by rw [hPbase])

/-- Witness for C4 at the path `tags` with the three inputs of the spec's own
example: a comma string splits and trims, a plain scalar is wrapped, an array
is unchanged. -/
theorem convertInputArrays_final_segment_witness :
    walkSegs (.obj [("tags", .str "a, b ,c")]) true [] = .ok (.obj [("tags", .str "a, b ,c")], true) ∧
    jsGet (.obj [("tags", .str "a, b ,c")]) "tags" = .ok (.str "a, b ,c") ∧
    readAt (convertInputArrays ["tags"] (.obj [("tags", .str "a, b ,c")])) ["tags"]
      = .ok (.arr [.str "a", .str "b", .str "c"]) ∧
    readAt (convertInputArrays ["tags"] (.obj [("tags", .str "solo")])) ["tags"]
      = .ok (.arr [.str "solo"]) ∧
    convertInputArrays ["tags"] (.obj [("tags", .arr [.str "already"])])
      = .obj [("tags", .arr [.str "already"])] := by
  refine ⟨rfl, rfl, ?_, ?_, ?_⟩
  · have T := convertInputArrays_final_segment (.obj [("tags", .str "a, b ,c")])
      (.obj [("tags", .str "a, b ,c")]) (.str "a, b ,c") "tags" [] "tags"
      (by decide) rfl rfl rfl rfl
    have h := T.2.2.1 "a, b ,c" rfl rfl
    exact h.trans rfl
  · have T := convertInputArrays_final_segment (.obj [("tags", .str "solo")])
      (.obj [("tags", .str "solo")]) (.str "solo") "tags" [] "tags"
      (by decide) rfl rfl rfl rfl
    exact T.2.2.2 rfl (fun xs h => by cases h) (fun s h => by cases h; rfl)
  · have T := convertInputArrays_final_segment (.obj [("tags", .arr [.str "already"])])
      (.obj [("tags", .arr [.str "already"])]) (.arr [.str "already"]) "tags" [] "tags"
      (by decide) rfl rfl rfl rfl
    exact T.2.1 [.str "already"] rfl

/-!
## The error translator (claims C2, C5, C6)
-/

theorem alistGet_pushField_self (l : List (String × List FieldError)) (p : String)
    (xs : List FieldError) (e : FieldError) (h : alistGet l p = some xs) :
    alistGet (pushField l p e) p = some (xs ++ [e]) := by
  induction l with
  | nil => simp [alistGet] at h
  | cons q rest ih =>
    obtain ⟨q0, l0⟩ := q
    by_cases h0 : q0 = p
    · subst h0
      have h2 : l0 = xs := by simpa [alistGet] using h
      subst h2
      simp [pushField, alistGet]
    · simp only [alistGet, if_neg h0] at h
      simp [pushField, h0, alistGet, ih h]

theorem alistGet_pushField_ne (l : List (String × List FieldError)) (q p : String)
    (e : FieldError) (h : ¬ p = q) : alistGet (pushField l q e) p = alistGet l p := by
  induction l with
  | nil => simp [pushField]
  | cons x rest ih =>
    obtain ⟨x0, l0⟩ := x
    by_cases h0 : x0 = q
    · subst h0
      have hx : ¬ x0 = p := fun hh => h (hh.symm)
      simp [pushField, alistGet, hx]
    · by_cases h1 : x0 = p
      · subst h1
        simp [pushField, h0, alistGet]
      · simp [pushField, h0, alistGet, h1, ih]

theorem alistGet_ensure_of_ne (l : List (String × List FieldError)) (q p : String)
    (h : ¬ p = q) :
    alistGet (if (alistGet l q).isNone then l ++ [(q, [])] else l) p = alistGet l p := by
  by_cases hq : (alistGet l q).isNone = true
  · rw [if_pos hq, alistGet_append]
    have hqp : ¬ q = p := fun hh => h hh.symm
    rcases hl : alistGet l p with - | v
    · simp [alistGet, hqp]
    · simp

  · rw [if_neg hq]

theorem alistGet_ensure_self (l : List (String × List FieldError)) (q : String) :
    alistGet (if (alistGet l q).isNone then l ++ [(q, [])] else l) q
      = some ((alistGet l q).getD []) := by
  rcases hl : alistGet l q with - | l0
  · simp [alistGet_append, hl, alistGet]
  · rw [if_neg (by simp), hl]
    rfl

/-- Zeta-expanded description of one iteration of the translator loop. -/
theorem processDetail_eq (schema : JoiSchema)
    (st : List (String × List FieldError) × List String) (d : Detail) :
    processDetail schema st d =
      if jsJoin "." d.path ∈ st.2 then
        (if (alistGet st.1 (jsJoin "." d.path)).isNone
         then st.1 ++ [(jsJoin "." d.path, [])] else st.1, st.2)
      else
        (pushField
          (if (alistGet st.1 (jsJoin "." d.path)).isNone
           then st.1 ++ [(jsJoin "." d.path, [])] else st.1)
          (jsJoin "." d.path)
          ⟨d.type, transformMsg (jsJoin "." d.path) (resolveMsg schema d).1⟩,
         if (resolveMsg schema d).2 then st.2 ++ [jsJoin "." d.path] else st.2) := rfl

theorem processDetail_preserves (schema : JoiSchema)
    (st : List (String × List FieldError) × List String) (d : Detail) (p : String)
    (hp : p ∈ st.2) (hsome : (alistGet st.1 p).isSome = true) :
    alistGet (processDetail schema st d).1 p = alistGet st.1 p ∧
    p ∈ (processDetail schema st d).2 ∧
    (alistGet (processDetail schema st d).1 p).isSome = true := by
  have hpd := processDetail_eq schema st d
  by_cases hskip : jsJoin "." d.path ∈ st.2
  · rw [if_pos hskip] at hpd
    by_cases hpq : p = jsJoin "." d.path
    · have hne : ¬ (alistGet st.1 (jsJoin "." d.path)).isNone = true := by
        rw [← hpq]
        rcases hx : alistGet st.1 p with - | v
        · rw [hx] at hsome
          cases hsome
        · simp
      rw [if_neg hne] at hpd
      rw [hpd]
      exact ⟨rfl, hp, hsome⟩
    · rw [hpd]
      refine ⟨alistGet_ensure_of_ne st.1 _ p hpq, hp, ?_⟩
      have h1 : alistGet (if (alistGet st.1 (jsJoin "." d.path)).isNone
          then st.1 ++ [(jsJoin "." d.path, [])] else st.1) p = alistGet st.1 p :=
        alistGet_ensure_of_ne st.1 _ p hpq
      rw [show alistGet ((if (alistGet st.1 (jsJoin "." d.path)).isNone
          then st.1 ++ [(jsJoin "." d.path, [])] else st.1), st.2).1 p = alistGet st.1 p from h1]
      exact hsome
  · rw [if_neg hskip] at hpd
    have hpq : ¬ p = jsJoin "." d.path := fun hh => hskip (hh ▸ hp)
    rw [hpd]
    have hget : alistGet (pushField (if (alistGet st.1 (jsJoin "." d.path)).isNone
          then st.1 ++ [(jsJoin "." d.path, [])] else st.1)
        (jsJoin "." d.path)
        ⟨d.type, transformMsg (jsJoin "." d.path) (resolveMsg schema d).1⟩) p
        = alistGet st.1 p := by
      rw [alistGet_pushField_ne _ _ _ _ hpq]
      exact alistGet_ensure_of_ne st.1 _ p hpq
    refine ⟨hget, ?_, by rw [show alistGet (pushField (if (alistGet st.1 (jsJoin "." d.path)).isNone
          then st.1 ++ [(jsJoin "." d.path, [])] else st.1)
        (jsJoin "." d.path)
        ⟨d.type, transformMsg (jsJoin "." d.path) (resolveMsg schema d).1⟩,
        if (resolveMsg schema d).2 then st.2 ++ [jsJoin "." d.path] else st.2).1 p
        = alistGet st.1 p from hget]; exact hsome⟩
    by_cases hany : (resolveMsg schema d).2 = true
    · have : (if (resolveMsg schema d).2 then st.2 ++ [jsJoin "." d.path] else st.2)
          = st.2 ++ [jsJoin "." d.path] := if_pos hany
      rw [show ((pushField (if (alistGet st.1 (jsJoin "." d.path)).isNone
          then st.1 ++ [(jsJoin "." d.path, [])] else st.1)
          (jsJoin "." d.path)
          ⟨d.type, transformMsg (jsJoin "." d.path) (resolveMsg schema d).1⟩,
          if (resolveMsg schema d).2 then st.2 ++ [jsJoin "." d.path] else st.2).2 : List String)
          = if (resolveMsg schema d).2 then st.2 ++ [jsJoin "." d.path] else st.2 from rfl, this]
      exact List.mem_append_left _ hp
    · have : (if (resolveMsg schema d).2 then st.2 ++ [jsJoin "." d.path] else st.2) = st.2 :=
        if_neg hany
      rw [show ((pushField (if (alistGet st.1 (jsJoin "." d.path)).isNone
          then st.1 ++ [(jsJoin "." d.path, [])] else st.1)
          (jsJoin "." d.path)
          ⟨d.type, transformMsg (jsJoin "." d.path) (resolveMsg schema d).1⟩,
          if (resolveMsg schema d).2 then st.2 ++ [jsJoin "." d.path] else st.2).2 : List String)
          = if (resolveMsg schema d).2 then st.2 ++ [jsJoin "." d.path] else st.2 from rfl, this]
      exact hp

theorem foldProcess_preserves (ds : List Detail) (schema : JoiSchema)
    (st : List (String × List FieldError) × List String) (p : String)
    (hp : p ∈ st.2) (hsome : (alistGet st.1 p).isSome = true) :
    alistGet ((ds.foldl (processDetail schema) st).1) p = alistGet st.1 p := by
  induction ds generalizing st with
  | nil => rfl
  | cons d ds ih =>
    obtain ⟨h1, h2, h3⟩ := processDetail_preserves schema st d p hp hsome
    simp only [List.foldl_cons]
    rw [ih _ h2 h3, h1]

/-- C2.  The generic `any` fallback suppresses later details of the same
field path: (1) once a path is on the `fieldsWithAny` list (and present in
the fields map, as it always is when put there), the whole remaining run of
the translator loop leaves that path's entry list untouched; (2) in
particular, a field whose resolved schema node defines only the generic
`any` message and which fails two distinct rule kinds produces exactly one
`{code, message}` pair — the first detail's code with the fallback message. -/
theorem handle_joi_any_suppression :
    (∀ (schema : JoiSchema) (ds : List Detail)
        (st : List (String × List FieldError) × List String) (p : String),
        p ∈ st.2 → (alistGet st.1 p).isSome = true →
        alistGet ((ds.foldl (processDetail schema) st).1) p = alistGet st.1 p) ∧
    (∀ (schema : JoiSchema) (d1 d2 : Detail) (i : Option String) (sch : JoiSchema)
        (m : String),
        d2.path = d1.path →
        getSchemaField schema d1.path = some (i, sch) →
        sch.messages = some [("any", m)] →
        d1.type ≠ "any" → d2.type ≠ "any" → d1.type ≠ d2.type →
        ([d1, d2].foldl (processDetail schema) ([], [])).1 =
          [(jsJoin "." d1.path,
            [⟨d1.type, transformMsg (jsJoin "." d1.path) m⟩])]) := by
  constructor
  · exact fun schema ds st p hp hsome => foldProcess_preserves ds schema st p hp hsome
  · intro schema d1 d2 i sch m hpath hres hmsg h1 _h2 _hne
    have hany1 : ¬ ("any" = d1.type) := fun hh => h1 hh.symm
    have hres1 : resolveMsg schema d1 = (m, true) := by
      simp [resolveMsg, hres, hmsg, alistGet, hany1]
    have hstep1 : processDetail schema ([], []) d1 =
        ([(jsJoin "." d1.path, [⟨d1.type, transformMsg (jsJoin "." d1.path) m⟩])],
         [jsJoin "." d1.path]) := by
      rw [processDetail_eq]
      simp [alistGet, pushField, hres1]
    have hstep2 : processDetail schema
        ([(jsJoin "." d1.path, [⟨d1.type, transformMsg (jsJoin "." d1.path) m⟩])],
         [jsJoin "." d1.path]) d2 =
        ([(jsJoin "." d1.path, [⟨d1.type, transformMsg (jsJoin "." d1.path) m⟩])],
         [jsJoin "." d1.path]) := by
      rw [processDetail_eq]
      simp [hpath, alistGet]
    simp only [List.foldl_cons, List.foldl_nil, hstep1, hstep2]

/-- Witness for C2: a run that already used the fallback for `a` ignores a
later detail for `a`, and the two-rule-kinds scenario on a schema whose only
custom message is the `any` fallback yields exactly one entry. -/
theorem handle_joi_any_suppression_witness :
    alistGet (([⟨["a"], "string.max", "a too long"⟩] :
        List Detail).foldl (processDetail (.mk "object" .nil none none))
        ([("a", [⟨"string.min", "Custom any"⟩])], ["a"])).1 "a"
      = alistGet [("a", [⟨"string.min", "Custom any"⟩])] "a" ∧
    (([⟨["a"], "string.min", "a length short"⟩, ⟨["a"], "string.max", "a length long"⟩] :
        List Detail).foldl (processDetail (.mk "object"
          (.cons "a" (some "a") (.mk "string" .nil (some [("any", "custom any")]) none) .nil)
          none none)) ([], [])).1
      = [("a", [⟨"string.min", "Custom any"⟩])] := by
  constructor
  · exact handle_joi_any_suppression.1 (.mk "object" .nil none none)
      [⟨["a"], "string.max", "a too long"⟩]
      ([("a", [⟨"string.min", "Custom any"⟩])], ["a"]) "a" (by decide) rfl
  · have T := handle_joi_any_suppression.2 (.mk "object"
        (.cons "a" (some "a") (.mk "string" .nil (some [("any", "custom any")]) none) .nil)
        none none)
      ⟨["a"], "string.min", "a length short"⟩ ⟨["a"], "string.max", "a length long"⟩
      (some "a") (.mk "string" .nil (some [("any", "custom any")]) none) "custom any"
      rfl rfl rfl (by decide) (by decide) (by decide)
    exact T.trans rfl

theorem processDetail_nonempty (schema : JoiSchema)
    (st : List (String × List FieldError) × List String) (d : Detail)
    (inv1 : ∀ p l, alistGet st.1 p = some l → ¬ l = [])
    (inv2 : ∀ p, p ∈ st.2 → (alistGet st.1 p).isSome = true) :
    (∀ p l, alistGet (processDetail schema st d).1 p = some l → ¬ l = []) ∧
    (∀ p, p ∈ (processDetail schema st d).2 →
      (alistGet (processDetail schema st d).1 p).isSome = true) := by
  have hpd := processDetail_eq schema st d
  by_cases hskip : jsJoin "." d.path ∈ st.2
  · rw [if_pos hskip] at hpd
    have hne : ¬ (alistGet st.1 (jsJoin "." d.path)).isNone = true := by
      have hs := inv2 _ hskip
      rcases hx : alistGet st.1 (jsJoin "." d.path) with - | v
      · rw [hx] at hs
        cases hs
      · simp
    rw [if_neg hne] at hpd
    rw [hpd]
    exact ⟨inv1, inv2⟩
  · rw [if_neg hskip] at hpd
    rw [hpd]
    constructor
    · intro p l hget
      by_cases hpq : p = jsJoin "." d.path
      · rw [← hpq] at hget
        rw [alistGet_pushField_self _ _ ((alistGet st.1 p).getD []) _
          (alistGet_ensure_self st.1 p)] at hget
        cases hget
        simp
      · rw [alistGet_pushField_ne _ _ _ _ hpq, alistGet_ensure_of_ne st.1 _ p hpq] at hget
        exact inv1 p l hget
    · intro p hpmem
      by_cases hpq : p = jsJoin "." d.path
      · rw [← hpq]
        rw [alistGet_pushField_self _ _ ((alistGet st.1 p).getD []) _
          (alistGet_ensure_self st.1 p)]
        rfl
      · rw [alistGet_pushField_ne _ _ _ _ hpq, alistGet_ensure_of_ne st.1 _ p hpq]
        have hpm2 : p ∈ st.2 := by
          by_cases hany : (resolveMsg schema d).2 = true
          · rw [if_pos hany] at hpmem
            rcases List.mem_append.mp hpmem with h | h
            · exact h
            · exact absurd (List.mem_singleton.mp h) hpq
          · rw [if_neg hany] at hpmem
            exact hpmem
        exact inv2 p hpm2

theorem foldProcess_nonempty (ds : List Detail) (schema : JoiSchema)
    (st : List (String × List FieldError) × List String)
    (inv1 : ∀ p l, alistGet st.1 p = some l → ¬ l = [])
    (inv2 : ∀ p, p ∈ st.2 → (alistGet st.1 p).isSome = true) :
    ∀ p l, alistGet ((ds.foldl (processDetail schema) st).1) p = some l → ¬ l = [] := by
  induction ds generalizing st with
  | nil => exact inv1
  | cons d ds ih =>
    simp only [List.foldl_cons]
    obtain ⟨j1, j2⟩ := processDetail_nonempty schema st d inv1 inv2
    exact ih _ j1 j2

/-- C5.  The `fields` mapping of a structured validation error thrown by
`handleJoiException` never maps a field path to an empty list: the empty list
created for a fresh path always receives the current detail's entry in the
same iteration, and the `fieldsWithAny` skip only ever fires for a path that
already has an entry. -/
theorem handle_joi_fields_nonempty (details : Option (List Detail)) (schema : JoiSchema)
    (p : String) (l : List FieldError)
    (h : alistGet (handleJoiException details schema).fields p = some l) : ¬ l = [] := by
  rcases details with - | ds
  · simp [handleJoiException, alistGet] at h
  · cases ds with
    | nil => simp [handleJoiException, alistGet] at h
    | cons d rest =>
      exact foldProcess_nonempty (d :: rest) schema ([], [])
        (fun p l hget => by simp [alistGet] at hget)
        (fun p hmem => absurd hmem (List.not_mem_nil p))
        p l h

/-- Witness for C5 at a one-detail exception over the trivial schema. -/
theorem handle_joi_fields_nonempty_witness :
    alistGet (handleJoiException (some [⟨["a"], "string.base", "a must be a string"⟩])
        (.mk "object" .nil none none)).fields "a"
      = some [⟨"string.base", "Must be a string"⟩] ∧
    ¬ ([⟨"string.base", "Must be a string"⟩] : List FieldError) = [] := by
  refine ⟨rfl, ?_⟩
  exact handle_joi_fields_nonempty
    (some [⟨["a"], "string.base", "a must be a string"⟩])
    (.mk "object" .nil none none) "a" [⟨"string.base", "Must be a string"⟩] rfl

theorem capitalizeFirst_head (m : String) :
    ((capitalizeFirst m).data.head?).map Char.toUpper = (capitalizeFirst m).data.head? := by
  rcases hm : m.data with - | ⟨c, rest⟩
  · simp only [capitalizeFirst, hm]
    rfl
  · simp only [capitalizeFirst, hm]
    simp [char_toUpper_idem]

theorem transformMsg_head (p m : String) :
    ((transformMsg p m).data.head?).map Char.toUpper = (transformMsg p m).data.head? := by
  unfold transformMsg
  by_cases h : strTake m p.length = p
  · rw [if_pos h]
    exact capitalizeFirst_head _
  · rw [if_neg h]
    exact capitalizeFirst_head _

theorem processDetail_msg (schema : JoiSchema)
    (st : List (String × List FieldError) × List String) (d : Detail)
    (inv : ∀ p l e, alistGet st.1 p = some l → e ∈ l →
      ((e : FieldError).message.data.head?).map Char.toUpper = e.message.data.head?) :
    ∀ p l e, alistGet (processDetail schema st d).1 p = some l → e ∈ l →
      ((e : FieldError).message.data.head?).map Char.toUpper = e.message.data.head? := by
  have hpd := processDetail_eq schema st d
  by_cases hskip : jsJoin "." d.path ∈ st.2
  · rw [if_pos hskip] at hpd
    rw [hpd]
    intro p l e hget hmem
    by_cases hpq : p = jsJoin "." d.path
    · rw [← hpq] at hget
      rw [alistGet_ensure_self st.1 p] at hget
      cases hget
      rcases hx : alistGet st.1 p with - | l0
      · rw [hx] at hmem
        simp at hmem
      · rw [hx] at hmem
        exact inv p l0 e hx hmem
    · rw [alistGet_ensure_of_ne st.1 _ p hpq] at hget
      exact inv p l e hget hmem
  · rw [if_neg hskip] at hpd
    rw [hpd]
    intro p l e hget hmem
    by_cases hpq : p = jsJoin "." d.path
    · rw [← hpq] at hget
      rw [alistGet_pushField_self _ _ ((alistGet st.1 p).getD []) _
        (alistGet_ensure_self st.1 p)] at hget
      cases hget
      rcases List.mem_append.mp hmem with hml | hmr
      · rcases hx : alistGet st.1 p with - | l0
        · rw [hx] at hml
          simp at hml
        · rw [hx] at hml
          exact inv p l0 e hx hml
      · have he : e = ⟨d.type, transformMsg p (resolveMsg schema d).1⟩ :=
          List.mem_singleton.mp hmr
        rw [he]
        exact transformMsg_head p (resolveMsg schema d).1
    · rw [alistGet_pushField_ne _ _ _ _ hpq, alistGet_ensure_of_ne st.1 _ p hpq] at hget
      exact inv p l e hget hmem

theorem foldProcess_msg (ds : List Detail) (schema : JoiSchema)
    (st : List (String × List FieldError) × List String)
    (inv : ∀ p l e, alistGet st.1 p = some l → e ∈ l →
      ((e : FieldError).message.data.head?).map Char.toUpper = e.message.data.head?) :
    ∀ p l e, alistGet ((ds.foldl (processDetail schema) st).1) p = some l → e ∈ l →
      ((e : FieldError).message.data.head?).map Char.toUpper = e.message.data.head? := by
  induction ds generalizing st with
  | nil => exact inv
  | cons d ds ih =>
    simp only [List.foldl_cons]
    exact ih _ (processDetail_msg schema st d inv)

/-- C6, counterexample to the claim as stated.  First part: a detail whose
message starts with a digit is emitted unchanged — the emitted message does
not start with a capital letter.  Second part: a message that repeats the
field path three times is stripped only once, so the emitted message still
starts with the (repeated) field path. -/
theorem handle_joi_message_counterexample :
    alistGet (handleJoiException (some [⟨["a"], "number.base", "123 bad"⟩])
        (.mk "object" .nil none none)).fields "a"
      = some [⟨"number.base", "123 bad"⟩] ∧
    (("123 bad".data.head?).map Char.isUpper = some false) ∧
    alistGet (handleJoiException (some [⟨["Name"], "any.required", "Name Name Name required"⟩])
        (.mk "object" .nil none none)).fields "Name"
      = some [⟨"any.required", "Name Name required"⟩] ∧
    strTake "Name Name required" "Name".length = "Name" :=
  ⟨rfl, rfl, rfl, rfl⟩

/-- C6 as amended.  Every emitted message has an uppercased first character
(its first character is a fixed point of `Char.toUpper`; a message starting
with a non-letter keeps that character, so it need not start with a capital
letter), and the transformation strips the leading field path plus one
following character exactly when the resolved message begins with the field
path — one single strip, after which the message may still begin with the
field path. -/
theorem handle_joi_message_transform :
    (∀ (details : Option (List Detail)) (schema : JoiSchema) (p : String)
        (l : List FieldError) (e : FieldError),
        alistGet (handleJoiException details schema).fields p = some l → e ∈ l →
        ((e : FieldError).message.data.head?).map Char.toUpper = e.message.data.head?) ∧
    (∀ p m : String, ¬ strTake m p.length = p →
        transformMsg p m = capitalizeFirst m) ∧
    (∀ p m : String, strTake m p.length = p →
        transformMsg p m = capitalizeFirst (strDrop m (p.length + 1))) := by
  refine ⟨?_, ?_, ?_⟩
  · intro details schema p l e h hmem
    rcases details with - | ds
    · simp [handleJoiException, alistGet] at h
    · cases ds with
      | nil => simp [handleJoiException, alistGet] at h
      | cons d rest =>
        exact foldProcess_msg (d :: rest) schema ([], [])
          (fun p l e hget _ => by simp [alistGet] at hget) p l e h hmem
  · intro p m h
    unfold transformMsg
    rw [if_neg h]
  · intro p m h
    unfold transformMsg
    rw [if_pos h]

/-- Witness for the amended C6 at concrete messages. -/
theorem handle_joi_message_transform_witness :
    (("Must be a string".data.head?).map Char.toUpper = "Must be a string".data.head? ∧
     alistGet (handleJoiException (some [⟨["a"], "string.base", "a must be a string"⟩])
        (.mk "object" .nil none none)).fields "a"
       = some [⟨"string.base", "Must be a string"⟩]) ∧
    (¬ strTake "bad value" "a".length = "a" ∧
     transformMsg "a" "bad value" = capitalizeFirst "bad value") ∧
    (strTake "a is required" "a".length = "a" ∧
     transformMsg "a" "a is required" = capitalizeFirst (strDrop "a is required" 2)) := by
  refine ⟨⟨?_, rfl⟩, ⟨by decide, ?_⟩, ⟨rfl, ?_⟩⟩
  · exact handle_joi_message_transform.1
      (some [⟨["a"], "string.base", "a must be a string"⟩])
      (.mk "object" .nil none none) "a" [⟨"string.base", "Must be a string"⟩]
      ⟨"string.base", "Must be a string"⟩ rfl (List.mem_singleton.mpr rfl)
  · exact handle_joi_message_transform.2.1 "a" "bad value" (by decide)
  · exact handle_joi_message_transform.2.2 "a" "a is required" rfl
